import Mathlib

/-!
# Verification of the env2op-cli core against its specification

A shallow embedding of the env2op/op2env CLI core (the `.env` parser, the
header framing, the 1Password synchronizer's edit submission, and the push/pull
command flows) together with proofs of the specification's testable
properties.

Strings from the TypeScript source are modelled as `List Char`; every string
operation used by the source (`trim`, `split("\n")`, `join("\n")`,
`startsWith`, `indexOf`, the key regex, the `\s+#` split) is given an explicit
executable model of JavaScript's semantics on `List Char`.
-/

set_option maxRecDepth 200000

namespace Env2Op

/-- Shorthand for writing character-list literals via `String.toList`. -/
def str (s : String) : List Char := s.toList

/-- JavaScript's whitespace set: the characters removed by `String.prototype.trim`
and matched by `\s` in a regular expression (WhiteSpace ∪ LineTerminator). -/
def jsWs (c : Char) : Bool :=
  let n := c.toNat
  n = 0x20 || n = 0x09 || n = 0x0A || n = 0x0B || n = 0x0C || n = 0x0D ||
  n = 0xA0 || n = 0x1680 || (0x2000 ≤ n && n ≤ 0x200A) ||
  n = 0x2028 || n = 0x2029 || n = 0x202F || n = 0x205F || n = 0x3000 || n = 0xFEFF

/-- Left part of JS `trim`: drop leading whitespace. -/
def trimLeft (l : List Char) : List Char := l.dropWhile jsWs

/-- Right part of JS `trim`: drop trailing whitespace. -/
def trimRight : List Char → List Char
  | [] => []
  | c :: rest =>
    let r := trimRight rest
    if r = [] && jsWs c then [] else c :: r

/-- JS `String.prototype.trim`. -/
def trim (l : List Char) : List Char := trimRight (trimLeft l)

/-- JS `content.split("\n")`: always returns at least one (possibly empty) piece. -/
def splitLines : List Char → List (List Char)
  | [] => [[]]
  | c :: rest =>
    if c = '\n' then [] :: splitLines rest
    else
      match splitLines rest with
      | [] => [[c]]
      | l :: ls => (c :: l) :: ls

/-- JS `lines.join("\n")`. -/
def joinLines : List (List Char) → List Char
  | [] => []
  | [l] => l
  | l :: ls => l ++ '\n' :: joinLines ls

/-- List-prefix test (JS `String.prototype.startsWith` specialised to our needs). -/
def listStartsWith : List Char → List Char → Bool
  | _, [] => true
  | [], _ :: _ => false
  | c :: rest, p :: ps => c = p && listStartsWith rest ps

end Env2Op

namespace Env2Op

/-! ## Header framing (`src/core/env-parser.ts`, final snapshot) -/

/-- The fixed header separator line from `env-parser.ts`:
`"# "` followed by 75 `'='` characters. -/
def SEP : List Char := '#' :: ' ' :: List.replicate 75 '='

/-- The line loop of `stripHeaders`: a line trimming to the separator toggles the
`inHeader` flag and is dropped; other lines are kept only outside a header region. -/
def stripLoop : List (List Char) → Bool → List (List Char)
  | [], _ => []
  | l :: rest, inHeader =>
    if trim l = SEP then stripLoop rest (!inHeader)
    else if inHeader then stripLoop rest inHeader
    else l :: stripLoop rest inHeader

/-- The trailing `while (result[0] is blank) result.shift()` loop of `stripHeaders`. -/
def dropLeadingBlanks (ls : List (List Char)) : List (List Char) :=
  ls.dropWhile (fun l => trim l = [])

/-- Model of `stripHeaders` from `env-parser.ts`: remove separator-delimited header blocks,
then remove the leading blank lines left behind. -/
def stripHeaders (content : List Char) : List Char :=
  joinLines (dropLeadingBlanks (stripLoop (splitLines content) false))

/-- Model of `stripBom` from `env-parser.ts`: drop a leading U+FEFF byte-order mark. -/
def stripBom : List Char → List Char
  | [] => []
  | c :: rest => if c.toNat = 0xFEFF then rest else c :: rest

/-! ## Value parsing (`parseValue` in `env-parser.ts`) -/

/-- Does the list begin with a whitespace run immediately followed by `'#'`
(continuation of `wsThenHash` after its first whitespace character)? -/
def hashAfterWs : List Char → Bool
  | [] => false
  | c :: rest => if jsWs c then hashAfterWs rest else c = '#'

/-- Does the list begin at a match of the JS regex `\s+#`? -/
def wsThenHash : List Char → Bool
  | [] => false
  | c :: rest => jsWs c && hashAfterWs rest

/-- Model of `trimmed.split(/\s+#/)[0]`: the prefix before the leftmost match of `\s+#`. -/
def beforeHash : List Char → List Char
  | [] => []
  | c :: rest => if wsThenHash (c :: rest) then [] else c :: beforeHash rest

/-- The unquoted fallthrough of `parseValue`: split on whitespace-then-`#` and trim. -/
def unquotedValue (t : List Char) : List Char := trim (beforeHash t)

/-- The single-quote character, spelt via its code point. -/
def squote : Char := Char.ofNat 39

/-- Model of `parseValue` from `env-parser.ts`: trim; a leading double or single
quote with a matching later quote of the same kind yields the text strictly
between them; otherwise the value is the trimmed prefix before any
whitespace-preceded `#`. -/
def parseValue (raw : List Char) : List Char :=
  let t := trim raw
  match t with
  | '"' :: rest =>
    if rest.any (· = '"') then rest.takeWhile (· ≠ '"') else unquotedValue t
  | c :: rest =>
    if c = squote then
      if rest.any (· = squote) then rest.takeWhile (· ≠ squote)
      else unquotedValue t
    else unquotedValue t
  | [] => unquotedValue t

/-! ## Line classification (`parseEnvFile` in `env-parser.ts`) -/

/-- First character of a valid key: the JS regex class `[A-Za-z_]`. -/
def isKeyStart (c : Char) : Bool :=
  let n := c.toNat
  (65 ≤ n && n ≤ 90) || (97 ≤ n && n ≤ 122) || n = 95

/-- Subsequent key characters: the JS regex class `[A-Za-z0-9_]`. -/
def isKeyChar (c : Char) : Bool :=
  let n := c.toNat
  (65 ≤ n && n ≤ 90) || (97 ≤ n && n ≤ 122) || (48 ≤ n && n ≤ 57) || n = 95

/-- JS regex line terminators, which `.` does not match. -/
def isLineTerm (c : Char) : Bool :=
  let n := c.toNat
  n = 0x0A || n = 0x0D || n = 0x2028 || n = 0x2029

/-- The match `trimmed.match(/^([A-Za-z_][A-Za-z0-9_]*)=(.*)$/)`: the maximal
key-character prefix must be followed by `'='` and a terminator-free remainder. -/
def kvMatch (l : List Char) : Option (List Char × List Char) :=
  match l with
  | [] => none
  | c :: _ =>
    if isKeyStart c then
      let k := l.takeWhile isKeyChar
      match l.drop k.length with
      | '=' :: rest => if rest.any isLineTerm then none else some (k, rest)
      | _ => none
    else none

/-- Model of `EnvVariable` from `src/core/types.ts`. -/
structure EnvVariable where
  key : List Char
  value : List Char
  comment : Option (List Char)
  line : Nat
deriving DecidableEq, Repr

/-- Model of `EnvLine` from `src/core/types.ts` (`variable` is spelt `var`). -/
inductive EnvLine where
  | empty : EnvLine
  | comment (content : List Char) : EnvLine
  | var (key value : List Char) : EnvLine
deriving DecidableEq, Repr

/-- Model of `ParseResult` from `src/core/types.ts` (`variables` is spelt `vars`, since
`variables` is a reserved word in Lean). -/
structure ParseResult where
  vars : List EnvVariable
  lines : List EnvLine
  errors : List (List Char)
deriving DecidableEq, Repr

/-- The parse error message `"Line ${n}: Invalid variable name"`. -/
def errLine (n : Nat) : List Char :=
  str "Line " ++ Nat.toDigits 10 n ++ str ": Invalid variable name"

/-- The line loop of `parseEnvFile`: `n` is the 1-based line number of the head,
`cur` is the mutable `currentComment` threaded through the iterations. -/
def parseLoop : List (List Char) → Nat → List Char → ParseResult
  | [], _, _ => ⟨[], [], []⟩
  | l :: rest, n, cur =>
    let trimmed := trim l
    if trimmed = [] then
      let r := parseLoop rest (n + 1) []
      { r with lines := .empty :: r.lines }
    else if listStartsWith trimmed (str "#") then
      let r := parseLoop rest (n + 1) (trim (trimmed.drop 1))
      { r with lines := .comment l :: r.lines }
    else
      match kvMatch trimmed with
      | some (k, raw) =>
        let v := parseValue raw
        let r := parseLoop rest (n + 1) []
        { r with
            vars :=
              ⟨k, v, if cur = [] then none else some cur, n⟩ :: r.vars,
            lines := .var k v :: r.lines }
      | none =>
        if trimmed.any (· = '=') then
          let r := parseLoop rest (n + 1) cur
          { r with errors := errLine n :: r.errors }
        else
          parseLoop rest (n + 1) cur

/-- Model of `parseEnvFile` from `env-parser.ts` as a pure function of the file content:
strip the BOM and any header block, then run the line loop. -/
def parseEnvFile (content : List Char) : ParseResult :=
  parseLoop (splitLines (stripHeaders (stripBom content))) 1 []

/-! ## Regeneration of a file from the stored `lines` sequence -/

/-- Regenerate one physical line from an `EnvLine`: a blank line for `empty`,
the stored content verbatim for `comment`, and `KEY=VALUE` for `var`. -/
def renderLine : EnvLine → List Char
  | .empty => []
  | .comment c => c
  | .var k v => k ++ '=' :: v

/-- A physical line is *structural* when it is blank or a comment. -/
def structural (l : List Char) : Bool :=
  trim l = [] || listStartsWith (trim l) (str "#")

/-- A whitespace-only line regenerates as a genuinely empty line. -/
def normBlank (l : List Char) : List Char := if trim l = [] then [] else l

/-- The key/value view of an `EnvLine`, defined only on `var` entries. -/
def varKV : EnvLine → Option (List Char × List Char)
  | .var k v => some (k, v)
  | _ => none

/-- The `EnvLine` (if any) that `parseEnvFile`'s loop records for a physical line. -/
def lineRepr (l : List Char) : Option EnvLine :=
  let trimmed := trim l
  if trimmed = [] then some .empty
  else if listStartsWith trimmed (str "#") then some (.comment l)
  else
    match kvMatch trimmed with
    | some (k, raw) => some (.var k (parseValue raw))
    | none => none

end Env2Op

namespace Env2Op

/-! ## The 1Password synchronizer (`src/core/onepassword.ts`, final snapshot) -/

/-- A field of a remote item as reported by `op item get --format json`. -/
structure OpField where
  id : List Char
  label : List Char
  value : List Char
deriving DecidableEq, Repr

/-- A remote secure-note item. -/
structure OpItem where
  id : List Char
  title : List Char
  vaultId : List Char
  vaultName : List Char
  fields : List OpField
deriving DecidableEq, Repr

/-- Model of `CreateItemResult` from `src/core/types.ts`; `fieldIds` models the JS object
as an insertion-ordered association list. -/
structure CreateItemResult where
  id : List Char
  title : List Char
  vault : List Char
  vaultId : List Char
  fieldIds : List (List Char × List Char)
deriving DecidableEq, Repr

/-- JS object assignment `m[k] = v`: overwrite in place, else append. -/
def setKey (m : List (List Char × List Char)) (k v : List Char) :
    List (List Char × List Char) :=
  if m.any (fun p => p.1 = k) then m.map (fun p => if p.1 = k then (k, v) else p)
  else m ++ [(k, v)]

/-- JS object read `m[k]`. -/
def getKey : List (List Char × List Char) → List Char → Option (List Char)
  | [], _ => none
  | (k, v) :: rest, key => if k = key then some v else getKey rest key

/-- The field-id extraction loop shared by `createSecureNote` and
`editSecureNote`: `if (field.label && field.id) fieldIds[field.label] = field.id`
(JS treats the empty string as falsy). -/
def extractFieldIds (fields : List OpField) : List (List Char × List Char) :=
  fields.foldl
    (fun acc f => if f.label ≠ [] ∧ f.id ≠ [] then setKey acc f.label f.id else acc)
    []

/-- Model of `const fieldType = secret ? "password" : "text"` in `editSecureNote`. -/
def fieldTypeName (secret : Bool) : List Char :=
  if secret then str "password" else str "text"

/-- One `${key}[${fieldType}]=${value}` field argument. -/
def fieldArg (secret : Bool) (v : EnvVariable) : List Char :=
  v.key ++ '[' :: fieldTypeName secret ++ ']' :: '=' :: v.value

/-- The full argument list `["item", "edit", title, "--vault", vault, ...fieldArgs]`
that `editSecureNote` submits to the provider CLI. -/
def editArgs (title vault : List Char) (secret : Bool) (fields : List EnvVariable) :
    List (List Char) :=
  [str "item", str "edit", title, str "--vault", vault] ++ fields.map (fieldArg secret)

/-- The provider CLI's deletion directive suffix: an `op item edit` field
argument of the form `label[delete]` (with no `=`, unlike an assignment) marks
the field `label` for deletion. -/
def deleteSuffix : List Char := str "[delete]"

/-- Is a field argument a deletion directive? It must be assignment-free (no
`=`) and end in `[delete]`. -/
def isDeletionArg (a : List Char) : Bool :=
  !a.any (· = '=') && listStartsWith a.reverse deleteSuffix.reverse

/-- The labels that a submitted edit's field-argument list marks for deletion. -/
def deletionLabels (args : List (List Char)) : List (List Char) :=
  args.filterMap fun a =>
    if isDeletionArg a then some (a.take (a.length - deleteSuffix.length))
    else none

/-- The field-argument part of a submitted `op item edit` argument list (after
the fixed `item edit <title> --vault <vault>` prefix). -/
def submittedFieldArgs (args : List (List Char)) : List (List Char) :=
  args.drop 5

/-- Modelled from the spec: the external provider CLI's semantics for one
`key[type]=value` assignment inside `item edit` (the provider contract of §6,
"item edit → same item shape", with the glossary's provider-assigned stable field
identifiers): an existing label keeps its field id and receives the new value; an
absent label is appended as a new field with a fresh provider-assigned id. -/
def applyAssign (fields : List OpField) (key newValue freshId : List Char) :
    List OpField :=
  if fields.any (fun f => f.label = key) then
    fields.map fun f => if f.label = key then { f with value := newValue } else f
  else fields ++ [⟨freshId, key, newValue⟩]

/-- A fresh provider-assigned field id (distinct per appended field). -/
def freshName (n : Nat) : List Char := str "fresh_" ++ Nat.toDigits 10 n

/-- Modelled from the spec: apply all submitted assignments in order. -/
def applyEdits (fields : List OpField) : List EnvVariable → Nat → List OpField
  | [], _ => fields
  | v :: rest, n => applyEdits (applyAssign fields v.key v.value (freshName n)) rest n.succ

/-- The outcome of `editSecureNote`: the submitted argument list, the item state
after the provider applied the edit, and the returned `CreateItemResult` (whose
`fieldIds` are read back from the post-edit `op item get`). -/
structure EditOutcome where
  submitted : List (List Char)
  item : OpItem
  result : CreateItemResult
deriving DecidableEq, Repr

/-- Model of `editSecureNote` from `onepassword.ts`: build the `item edit` argument list
from the desired fields, let the provider apply it, then read the item back and
extract the label→field-id mapping. -/
def editSecureNote (item : OpItem) (vault title : List Char) (secret : Bool)
    (fields : List EnvVariable) : EditOutcome :=
  let args := editArgs title vault secret fields
  let newFields := applyEdits item.fields fields 0
  let item' := { item with fields := newFields }
  { submitted := args
    item := item'
    result :=
      { id := item'.id, title := item'.title, vault := item'.vaultName,
        vaultId := item'.vaultId, fieldIds := extractFieldIds newFields } }

/-- The spec's update-diff scenario: a remote item whose non-built-in field
labels are `A`, `B`, `C`, with provider-assigned ids `f1`, `f2`, `f3`. -/
def demoItem : OpItem :=
  ⟨str "item1", str "MyApp", str "vault1", str "Personal",
   [⟨str "f1", str "A", str "1"⟩, ⟨str "f2", str "B", str "2"⟩,
    ⟨str "f3", str "C", str "3"⟩]⟩

/-- The desired variable list of the update-diff scenario: key set `{B, C, D}`. -/
def demoVars : List EnvVariable :=
  [⟨str "B", str "2", none, 1⟩, ⟨str "C", str "3", none, 2⟩,
   ⟨str "D", str "4", none, 3⟩]

/-! ## Command flows (`src/commands/convert.ts` and `src/commands/inject.ts`)

Each flow is modelled as a pure function from its options and a *world* (the
answers the environment would give to each query) to the ordered list of
observable effects it performs, the resulting exit code, and (for the pull
flow) the final file-system contents. Logging is not an observable effect. -/

/-- The observable effects of a push/pull run. -/
inductive Effect where
  | fileRead (path : List Char)
  | fileExists (path : List Char)
  | fileWrite (path : List Char)
  | checkOpCli
  | checkSignedIn
  | vaultExists (vault : List Char)
  | vaultCreate (vault : List Char)
  | itemExists (vault title : List Char)
  | itemEdit (vault title : List Char)
  | itemCreate (vault title : List Char)
  | opInject (tpl out : List Char)
  | confirmVaultCreate (vault : List Char)
  | confirmItemUpdate (title vault : List Char)
  | confirmOverwrite (path : List Char)
deriving DecidableEq, Repr

/-- A provider-CLI call (read-only or mutating). -/
def isProviderCall : Effect → Bool
  | .checkOpCli | .checkSignedIn | .vaultExists _ | .vaultCreate _
  | .itemExists _ _ | .itemEdit _ _ | .itemCreate _ _ | .opInject _ _ => true
  | _ => false

/-- An effect that writes a file or mutates provider state. -/
def isMutation : Effect → Bool
  | .fileWrite _ | .vaultCreate _ | .itemEdit _ _ | .itemCreate _ _
  | .opInject _ _ => true
  | _ => false

/-- Model of `ConvertOptions` from `src/core/types.ts` (the fields the flow branches on). -/
structure ConvertOptions where
  envFile : List Char
  vault : List Char
  itemName : List Char
  output : Option (List Char)
  dryRun : Bool
  secret : Bool
  force : Bool
deriving DecidableEq, Repr

/-- The environment of one `runConvert` invocation: the env file's content (if
readable) and the answers of the provider CLI and the interactive prompts. -/
structure ConvertWorld where
  envContent : Option (List Char)
  opInstalled : Bool
  signedIn : Bool
  vaultFound : Bool
  vaultCreateOk : Bool
  itemFound : Bool
  confirmVaultCreate : Bool
  confirmItemUpdate : Bool
  editOk : Bool
  createOk : Bool
deriving DecidableEq, Repr

/-- Trace and exit code of a push run. -/
structure ConvertRun where
  trace : List Effect
  exitCode : Nat
deriving DecidableEq, Repr

/-- The template output path: `output ?? join(dirname(envFile),
basename(envFile) + ".tpl")`, which recomposes to `envFile + ".tpl"`. -/
def templatePathOf (o : ConvertOptions) : List Char :=
  o.output.getD (o.envFile ++ str ".tpl")

/-- Model of `runConvert` from `src/commands/convert.ts` as a trace semantics. Steps: parse
the env file (exit 1 on read failure or zero variables); under `--dry-run` only
print intentions; otherwise check the CLI and sign-in (exit 1 on failure), resolve
the vault (prompting or force-creating), resolve the item (prompting before an
update), edit or create it, and finally write the template file. A declined
prompt exits 0; a failed provider call exits 1. Template *content* generation is
not modelled (template-generator.ts is external to the claims about this flow);
the write is the observable effect. -/
def runConvert (o : ConvertOptions) (w : ConvertWorld) : ConvertRun :=
  match w.envContent with
  | none => ⟨[.fileRead o.envFile], 1⟩
  | some content =>
    let pr := parseEnvFile content
    let t0 := [Effect.fileRead o.envFile]
    if pr.vars.length = 0 then ⟨t0, 1⟩
    else if o.dryRun then ⟨t0, 0⟩
    else
      let t1 := t0 ++ [Effect.checkOpCli]
      if !w.opInstalled then ⟨t1, 1⟩
      else
        let t2 := t1 ++ [Effect.checkSignedIn]
        if !w.signedIn then ⟨t2, 1⟩
        else
          let t3 := t2 ++ [Effect.vaultExists o.vault]
          let vaultStep : Option (List Effect × Nat) :=
            if w.vaultFound then some (t3, 0)
            else if o.force then
              if w.vaultCreateOk then some (t3 ++ [Effect.vaultCreate o.vault], 0)
              else none
            else if !w.confirmVaultCreate then
              some (t3 ++ [Effect.confirmVaultCreate o.vault], 2)
            else if w.vaultCreateOk then
              some (t3 ++ [Effect.confirmVaultCreate o.vault,
                           Effect.vaultCreate o.vault], 0)
            else none
          match vaultStep with
          | none =>
            ⟨t3 ++ (if o.force then [Effect.vaultCreate o.vault]
                    else [Effect.confirmVaultCreate o.vault,
                          Effect.vaultCreate o.vault]), 1⟩
          | some (t4, status) =>
            if status = 2 then ⟨t4, 0⟩
            else
              let t5 := t4 ++ [Effect.itemExists o.vault o.itemName]
              if w.itemFound then
                if !o.force && !w.confirmItemUpdate then
                  ⟨t5 ++ [Effect.confirmItemUpdate o.itemName o.vault], 0⟩
                else
                  let t6 := (if o.force then t5
                             else t5 ++ [Effect.confirmItemUpdate o.itemName o.vault])
                            ++ [Effect.itemEdit o.vault o.itemName]
                  if !w.editOk then ⟨t6, 1⟩
                  else ⟨t6 ++ [Effect.fileWrite (templatePathOf o)], 0⟩
              else
                let t6 := t5 ++ [Effect.itemCreate o.vault o.itemName]
                if !w.createOk then ⟨t6, 1⟩
                else ⟨t6 ++ [Effect.fileWrite (templatePathOf o)], 0⟩

/-! ## The pull flow (`src/commands/inject.ts`) -/

/-- Modelled from the spec: `generateEnvHeader` from
`src/core/template-generator.ts` is not among the provided sources (only its
callers are). Per §6 of the spec, the generated `.env` file "begins with a
header block bounded by a fixed separator line (containing a generation marker,
e.g. source filename and timestamp), followed by a blank line". The callers show
it returns a list of lines that is joined with `"\n"` and prepended directly to
the content. -/
def generateEnvHeader (filename timestamp : List Char) : List (List Char) :=
  [SEP,
   str "# Source: " ++ filename,
   str "# Generated: " ++ timestamp,
   SEP,
   [],
   []]

/-- The pull flow's header prepending (`inject.ts`):
`generateEnvHeader(basename(outputPath)).join("\n") + envContent`. -/
def prependHeader (filename timestamp content : List Char) : List Char :=
  joinLines (generateEnvHeader filename timestamp) ++ content

/-- Node's `basename`: the part of the path after the last `'/'`. -/
def basename (p : List Char) : List Char :=
  (p.reverse.takeWhile (· ≠ '/')).reverse

/-- Model of `deriveOutputPath` from `inject.ts`: strip a `.tpl` suffix, else append `.env`. -/
def deriveOutputPath (templatePath : List Char) : List Char :=
  if listStartsWith templatePath.reverse (str ".tpl").reverse then
    templatePath.take (templatePath.length - 4)
  else templatePath ++ str ".env"

/-- Model of `InjectOptions` from `src/core/types.ts` (the fields the flow branches on). -/
structure InjectOptions where
  templateFile : List Char
  output : Option (List Char)
  dryRun : Bool
  force : Bool
deriving DecidableEq, Repr

/-- The environment of one `runInject` invocation: the file system (an
association list from path to content), the provider CLI answers, the user's
answer to the overwrite prompt, whether `op inject` succeeds, the content it
resolves, and the timestamp used in the generated header. -/
structure InjectWorld where
  files : List (List Char × List Char)
  opInstalled : Bool
  signedIn : Bool
  confirmOverwrite : Bool
  injectOk : Bool
  resolved : List Char
  timestamp : List Char
deriving DecidableEq, Repr

/-- Trace, exit code and final file system of a pull run. -/
structure InjectRun where
  trace : List Effect
  exitCode : Nat
  files : List (List Char × List Char)
deriving DecidableEq, Repr

/-- The output path `output ?? deriveOutputPath(templateFile)`. -/
def outPathOf (o : InjectOptions) : List Char :=
  o.output.getD (deriveOutputPath o.templateFile)

/-- Model of `runInject` from `src/commands/inject.ts` as a trace semantics. Steps: check
the template file exists (exit 1 otherwise); unless `--dry-run`, check the CLI
and sign-in (exit 1 on failure); check whether the output file exists; under
`--dry-run` stop there (exit 0); prompt before overwriting an existing output
without `--force` (declining exits 0); run `op inject` into the output path
(failure exits 1), then read the output back, strip any existing headers, and
rewrite it with a fresh header prepended. -/
def runInject (o : InjectOptions) (w : InjectWorld) : InjectRun :=
  let outPath := outPathOf o
  let t0 := [Effect.fileExists o.templateFile]
  if (getKey w.files o.templateFile).isNone then ⟨t0, 1, w.files⟩
  else
    let checks := if o.dryRun then [] else [Effect.checkOpCli]
    if !o.dryRun && !w.opInstalled then ⟨t0 ++ checks, 1, w.files⟩
    else
      let checks2 := if o.dryRun then [] else [Effect.checkOpCli, Effect.checkSignedIn]
      if !o.dryRun && !w.signedIn then ⟨t0 ++ checks2, 1, w.files⟩
      else
        let t1 := t0 ++ checks2 ++ [Effect.fileExists outPath]
        let outputExists := (getKey w.files outPath).isSome
        if o.dryRun then ⟨t1, 0, w.files⟩
        else if outputExists && !o.force && !w.confirmOverwrite then
          ⟨t1 ++ [Effect.confirmOverwrite outPath], 0, w.files⟩
        else
          let t2 := (if outputExists && !o.force then
                       t1 ++ [Effect.confirmOverwrite outPath]
                     else t1)
                    ++ [Effect.opInject o.templateFile outPath]
          if !w.injectOk then ⟨t2, 1, w.files⟩
          else
            let files1 := setKey w.files outPath w.resolved
            let envContent := stripHeaders w.resolved
            let finalContent := prependHeader (basename outPath) w.timestamp envContent
            ⟨t2 ++ [Effect.fileRead outPath, Effect.fileWrite outPath], 0,
             setKey files1 outPath finalContent⟩

end Env2Op




namespace Env2Op

/-! ## Basic lemmas about the string model -/

theorem splitLines_ne_nil (s : List Char) : splitLines s ≠ [] := by
  induction s with
  | nil => simp [splitLines]
  | cons c rest ih =>
    simp only [splitLines]
    split
    · simp
    · split <;> simp

theorem mem_splitLines_no_nl {s : List Char} {l : List Char}
    (h : l ∈ splitLines s) : '\n' ∉ l := by
  induction s generalizing l with
  | nil =>
    simp only [splitLines, List.mem_singleton] at h
    subst h; simp
  | cons c rest ih =>
    simp only [splitLines] at h
    split at h
    · rcases List.mem_cons.mp h with h | h
      · subst h; simp
      · exact ih h
    · rename_i hc
      rcases hsp : splitLines rest with _ | ⟨hd, tl⟩
      · exact absurd hsp (splitLines_ne_nil rest)
      · rw [hsp] at h
        rcases List.mem_cons.mp h with h | h
        · subst h
          intro hmem
          rcases List.mem_cons.mp hmem with h | h
          · exact hc h.symm
          · exact ih (hsp ▸ List.mem_cons_self hd tl) h
        · exact ih (hsp ▸ List.mem_cons_of_mem hd h)

theorem splitLines_cons_of_ne {c : Char} {x l : List Char} {ls : List (List Char)}
    (hc : ¬ c = '\n') (h : splitLines x = l :: ls) :
    splitLines (c :: x) = (c :: l) :: ls := by
  simp only [splitLines, if_neg hc, h]

theorem splitLines_of_no_nl {a : List Char} (h : '\n' ∉ a) :
    splitLines a = [a] := by
  induction a with
  | nil => simp [splitLines]
  | cons c rest ih =>
    simp only [List.mem_cons, not_or] at h
    exact splitLines_cons_of_ne (fun hh => h.1 hh.symm) (ih h.2)

theorem joinLines_cons_cons (l l' : List Char) (ls : List (List Char)) :
    joinLines (l :: l' :: ls) = l ++ '\n' :: joinLines (l' :: ls) := rfl

theorem splitLines_append_nl {a : List Char} (r : List Char) (h : '\n' ∉ a) :
    splitLines (a ++ '\n' :: r) = a :: splitLines r := by
  induction a with
  | nil => simp [splitLines]
  | cons c rest ih =>
    simp only [List.mem_cons, not_or] at h
    rw [List.cons_append]
    exact splitLines_cons_of_ne (fun hh => h.1 hh.symm) (ih h.2)

theorem splitLines_joinLines_last {A : List (List Char)} (y : List Char)
    (h : ∀ l ∈ A, '\n' ∉ l) :
    splitLines (joinLines (A ++ [y])) = A ++ splitLines y := by
  induction A with
  | nil => simp [joinLines]
  | cons a A' ih =>
    have ha : '\n' ∉ a := h a (List.mem_cons_self a A')
    have h' : ∀ l ∈ A', '\n' ∉ l := fun l hl => h l (List.mem_cons_of_mem a hl)
    rcases A' with _ | ⟨b, A''⟩
    · simp only [List.nil_append, List.cons_append, joinLines_cons_cons,
        joinLines, splitLines_append_nl _ ha, List.singleton_append]
    · simp only [List.cons_append] at ih ⊢
      rw [joinLines_cons_cons, splitLines_append_nl _ ha, ih h']

theorem splitLines_joinLines {L : List (List Char)} (hne : L ≠ [])
    (h : ∀ l ∈ L, '\n' ∉ l) : splitLines (joinLines L) = L := by
  rcases hL : L.reverse with _ | ⟨y, A⟩
  · exact absurd (by simpa using congrArg List.reverse hL) hne
  · have : L = A.reverse ++ [y] := by
      have := congrArg List.reverse hL
      simpa using this
    subst this
    rw [splitLines_joinLines_last y, splitLines_of_no_nl]
    · exact h y (by simp)
    · intro l hl
      exact h l (by simp [hl])

theorem mem_dropWhile {p : List Char → Bool} {l : List (List Char)}
    {x : List Char} (h : x ∈ l.dropWhile p) : x ∈ l := by
  induction l with
  | nil => simp at h
  | cons a t ih =>
    by_cases hp : p a
    · rw [List.dropWhile_cons_of_pos hp] at h
      exact List.mem_cons_of_mem a (ih h)
    · rwa [List.dropWhile_cons_of_neg hp] at h

theorem dropWhile_head_false {p : List Char → Bool} {l : List (List Char)}
    {x : List Char} {xs : List (List Char)} (h : l.dropWhile p = x :: xs) :
    p x = false := by
  induction l with
  | nil => simp at h
  | cons a t ih =>
    by_cases hp : p a
    · rw [List.dropWhile_cons_of_pos hp] at h
      exact ih h
    · rw [List.dropWhile_cons_of_neg hp] at h
      cases h
      exact Bool.not_eq_true _ ▸ (by simpa using hp)

theorem dropWhile_of_head_false {p : List Char → Bool} {x : List Char}
    (xs : List (List Char)) (h : p x = false) :
    (x :: xs).dropWhile p = x :: xs :=
  List.dropWhile_cons_of_neg (by simp [h])

end Env2Op

namespace Env2Op

/-! ## Properties of `stripHeaders` -/

theorem mem_stripLoop {ls : List (List Char)} {b : Bool} {l : List Char}
    (h : l ∈ stripLoop ls b) : l ∈ ls := by
  induction ls generalizing b with
  | nil => simp [stripLoop] at h
  | cons a t ih =>
    simp only [stripLoop] at h
    split at h
    · exact List.mem_cons_of_mem a (ih h)
    · split at h
      · exact List.mem_cons_of_mem a (ih h)
      · rcases List.mem_cons.mp h with h | h
        · exact h ▸ List.mem_cons_self a t
        · exact List.mem_cons_of_mem a (ih h)

theorem stripLoop_trim_ne_sep {ls : List (List Char)} {b : Bool} {l : List Char}
    (h : l ∈ stripLoop ls b) : trim l ≠ SEP := by
  induction ls generalizing b with
  | nil => simp [stripLoop] at h
  | cons a t ih =>
    simp only [stripLoop] at h
    by_cases hsep : trim a = SEP
    · rw [if_pos hsep] at h
      exact ih h
    · rw [if_neg hsep] at h
      by_cases hb : b = true
      · rw [if_pos hb] at h
        exact ih h
      · rw [if_neg hb] at h
        rcases List.mem_cons.mp h with h | h
        · exact h ▸ hsep
        · exact ih h

theorem stripLoop_id {ls : List (List Char)}
    (h : ∀ l ∈ ls, trim l ≠ SEP) : stripLoop ls false = ls := by
  induction ls with
  | nil => rfl
  | cons a t ih =>
    have ha : trim a ≠ SEP := h a (List.mem_cons_self a t)
    have ht := ih fun l hl => h l (List.mem_cons_of_mem a hl)
    simp only [stripLoop, if_neg ha]
    simp [ht]

theorem stripHeaders_empty : stripHeaders [] = [] := by rfl

/-- The lines of a `stripHeaders` result: no separator line, no leading blank,
no embedded newline, and the result is their `"\n"`-join. -/
theorem stripHeaders_spec (s : List Char) :
    ∃ L : List (List Char),
      stripHeaders s = joinLines L ∧
      (∀ l ∈ L, trim l ≠ SEP) ∧
      (∀ l ∈ L, '\n' ∉ l) ∧
      (∀ l₀ ls, L = l₀ :: ls → trim l₀ ≠ []) := by
  refine ⟨dropLeadingBlanks (stripLoop (splitLines s) false), rfl, ?_, ?_, ?_⟩
  · intro l hl
    exact stripLoop_trim_ne_sep (mem_dropWhile hl)
  · intro l hl
    exact mem_splitLines_no_nl (mem_stripLoop (mem_dropWhile hl))
  · intro l₀ ls hL
    have := dropWhile_head_false (p := fun l => decide (trim l = [])) hL
    simpa using this

/-- Applying `stripHeaders` to a `"\n"`-join of already-clean lines is the
identity up to re-dropping leading blanks (which are absent). -/
theorem stripHeaders_joinLines_clean {L : List (List Char)}
    (hsep : ∀ l ∈ L, trim l ≠ SEP) (hnl : ∀ l ∈ L, '\n' ∉ l)
    (hhead : ∀ l₀ ls, L = l₀ :: ls → trim l₀ ≠ []) :
    stripHeaders (joinLines L) = joinLines L := by
  rcases L with _ | ⟨l₀, ls⟩
  · exact stripHeaders_empty
  · unfold stripHeaders
    rw [splitLines_joinLines (by simp) hnl, stripLoop_id hsep]
    unfold dropLeadingBlanks
    rw [dropWhile_of_head_false ls (by simp [hhead l₀ ls rfl])]

/-- Claim C4: `stripHeaders` is idempotent. -/
theorem stripHeaders_idempotent (s : List Char) :
    stripHeaders (stripHeaders s) = stripHeaders s := by
  obtain ⟨L, hL, hsep, hnl, hhead⟩ := stripHeaders_spec s
  rw [hL]
  exact stripHeaders_joinLines_clean hsep hnl hhead

end Env2Op

namespace Env2Op

/-! ## Header prepending (the pull flow) -/

theorem joinLines_cons_ne {B : List (List Char)} (a : List Char) (hB : B ≠ []) :
    joinLines (a :: B) = a ++ '\n' :: joinLines B := by
  rcases B with _ | ⟨b, B'⟩
  · exact absurd rfl hB
  · rfl

theorem joinLines_append_last (A : List (List Char)) (y Z : List Char) :
    joinLines (A ++ [y]) ++ Z = joinLines (A ++ [y ++ Z]) := by
  induction A with
  | nil => simp [joinLines]
  | cons a A' ih =>
    rw [List.cons_append, List.cons_append,
      joinLines_cons_ne a (by simp), joinLines_cons_ne a (by simp)]
    simp only [List.append_assoc, List.cons_append, List.nil_append]
    rw [ih]

theorem stripLoop_header (c1 c2 : List Char) (SL : List (List Char))
    (h1 : trim c1 ≠ SEP) (h2 : trim c2 ≠ SEP) :
    stripLoop (SEP :: c1 :: c2 :: SEP :: [] :: SL) false
      = [] :: stripLoop SL false := by
  have hSEP : trim SEP = SEP := by decide
  have hnil : trim ([] : List Char) ≠ SEP := by decide
  simp [stripLoop, hSEP, h1, h2, hnil]

/-- Amended C3: on freshly stripped content, prepending the generated header and
stripping again recovers the stripped content — `stripHeaders` removes exactly
the fresh header (it is not a no-op on freshly headed content). The filename and
timestamp markers must be single lines that do not themselves spell the
separator. -/
theorem stripHeaders_prependHeader_stripHeaders (fn ts X : List Char)
    (hfn : '\n' ∉ fn) (hts : '\n' ∉ ts)
    (h1 : trim (str "# Source: " ++ fn) ≠ SEP)
    (h2 : trim (str "# Generated: " ++ ts) ≠ SEP) :
    stripHeaders (prependHeader fn ts (stripHeaders X)) = stripHeaders X := by
  obtain ⟨L, hL, hsep, hnl, hhead⟩ := stripHeaders_spec X
  rw [hL]
  have hpre : prependHeader fn ts (joinLines L)
      = joinLines ([SEP, str "# Source: " ++ fn, str "# Generated: " ++ ts,
          SEP, []] ++ [joinLines L]) := by
    unfold prependHeader
    have hgen : generateEnvHeader fn ts
        = [SEP, str "# Source: " ++ fn, str "# Generated: " ++ ts, SEP, []]
          ++ [[]] := rfl
    rw [hgen, joinLines_append_last]
    simp
  rw [hpre]
  have hA : ∀ l ∈ [SEP, str "# Source: " ++ fn, str "# Generated: " ++ ts,
      SEP, []], '\n' ∉ l := by
    intro l hl
    have hsepnl : '\n' ∉ SEP := by decide
    have hc1 : '\n' ∉ str "# Source: " ++ fn := by
      intro hmem
      rcases List.mem_append.mp hmem with hmem | hmem
      · revert hmem; decide
      · exact hfn hmem
    have hc2 : '\n' ∉ str "# Generated: " ++ ts := by
      intro hmem
      rcases List.mem_append.mp hmem with hmem | hmem
      · revert hmem; decide
      · exact hts hmem
    simp only [List.mem_cons, List.mem_singleton, List.not_mem_nil,
      or_false] at hl
    rcases hl with rfl | rfl | rfl | rfl | rfl
    · exact hsepnl
    · exact hc1
    · exact hc2
    · exact hsepnl
    · simp
  unfold stripHeaders
  rw [splitLines_joinLines_last _ hA]
  rcases hcase : L with _ | ⟨l₀, ls⟩
  · rw [show joinLines ([] : List (List Char)) = [] from rfl]
    rw [show splitLines ([] : List Char) = [[]] from rfl]
    simp only [List.cons_append, List.nil_append]
    rw [stripLoop_header _ _ _ h1 h2]
    decide
  · rw [splitLines_joinLines (by simp) (hcase ▸ hnl)]
    simp only [List.cons_append, List.nil_append]
    rw [stripLoop_header _ _ _ h1 h2, stripLoop_id (hcase ▸ hsep)]
    unfold dropLeadingBlanks
    rw [List.dropWhile_cons_of_pos (by decide),
      dropWhile_of_head_false ls (by simp [hhead l₀ ls hcase])]

end Env2Op

namespace Env2Op

/-- Claim C3, counterexample: At `X = "A=1"` (filename `"x"`, timestamp `"t"`),
stripping freshly headed content is *not* a no-op: it removes the header, so
`stripHeaders (prependHeader (stripHeaders X)) ≠ prependHeader (stripHeaders X)`. -/
theorem strip_fresh_header_not_noop :
    stripHeaders (prependHeader (str "x") (str "t") (stripHeaders (str "A=1")))
      ≠ prependHeader (str "x") (str "t") (stripHeaders (str "A=1")) := by
  decide

/-- Witness for the amended C3 at `X = "A=1"`, filename `"x"`, timestamp `"t"`. -/
theorem strip_prepend_strip_witness :
    ('\n' ∉ str "x") ∧ ('\n' ∉ str "t") ∧
    trim (str "# Source: " ++ str "x") ≠ SEP ∧
    trim (str "# Generated: " ++ str "t") ≠ SEP ∧
    stripHeaders (prependHeader (str "x") (str "t") (stripHeaders (str "A=1")))
      = stripHeaders (str "A=1") :=
  ⟨by decide, by decide, by decide, by decide,
   stripHeaders_prependHeader_stripHeaders (str "x") (str "t") (str "A=1")
     (by decide) (by decide) (by decide) (by decide)⟩

/-! ## A lone separator swallows the rest of the input (C10) -/

theorem stripLoop_drop_in_header {post : List (List Char)}
    (h : ∀ l ∈ post, trim l ≠ SEP) : stripLoop post true = [] := by
  induction post with
  | nil => rfl
  | cons a t ih =>
    have ha := h a (List.mem_cons_self a t)
    have ht := ih fun l hl => h l (List.mem_cons_of_mem a hl)
    simp only [stripLoop, if_neg ha]
    simp [ht]

theorem stripLoop_append_clean {pre rest : List (List Char)}
    (h : ∀ l ∈ pre, trim l ≠ SEP) :
    stripLoop (pre ++ rest) false = pre ++ stripLoop rest false := by
  induction pre with
  | nil => rfl
  | cons a t ih =>
    have ha := h a (List.mem_cons_self a t)
    simp only [List.cons_append, stripLoop, if_neg ha]
    simp [ih fun l hl => h l (List.mem_cons_of_mem a hl)]

theorem stripHeaders_joinLines_of_clean {L : List (List Char)}
    (hnl : ∀ l ∈ L, '\n' ∉ l) (hsep : ∀ l ∈ L, trim l ≠ SEP) :
    stripHeaders (joinLines L) = joinLines (dropLeadingBlanks L) := by
  rcases L with _ | ⟨l₀, ls⟩
  · rfl
  · unfold stripHeaders
    rw [splitLines_joinLines (by simp) hnl, stripLoop_id hsep]

/-- Claim C10: If exactly one line of the input trims to the header separator (an
unmatched opening separator), `stripHeaders` removes that line and every
subsequent line: the result equals stripping the input truncated just before
the separator. -/
theorem stripHeaders_lone_separator (pre post : List (List Char)) (sl : List Char)
    (hpre : ∀ l ∈ pre, '\n' ∉ l ∧ trim l ≠ SEP)
    (hpost : ∀ l ∈ post, '\n' ∉ l ∧ trim l ≠ SEP)
    (hslnl : '\n' ∉ sl) (hsl : trim sl = SEP) :
    stripHeaders (joinLines (pre ++ sl :: post))
      = stripHeaders (joinLines pre) := by
  have hprenl : ∀ l ∈ pre, '\n' ∉ l := fun l hl => (hpre l hl).1
  have hpresep : ∀ l ∈ pre, trim l ≠ SEP := fun l hl => (hpre l hl).2
  have hall : ∀ l ∈ pre ++ sl :: post, '\n' ∉ l := by
    intro l hl
    rcases List.mem_append.mp hl with hl | hl
    · exact hprenl l hl
    · rcases List.mem_cons.mp hl with rfl | hl
      · exact hslnl
      · exact (hpost l hl).1
  have hdrop : stripLoop (sl :: post) false = [] := by
    simp only [stripLoop, if_pos hsl]
    simpa using stripLoop_drop_in_header fun l hl => (hpost l hl).2
  rw [stripHeaders_joinLines_of_clean hprenl hpresep]
  unfold stripHeaders
  rw [splitLines_joinLines (by simp) hall, stripLoop_append_clean hpresep,
    hdrop, List.append_nil]

/-- Witness for C10 at `pre = ["A=1"]`, `post = ["B=2"]`, separator line `SEP`. -/
theorem stripHeaders_lone_separator_witness :
    (∀ l ∈ [str "A=1"], '\n' ∉ l ∧ trim l ≠ SEP) ∧
    (∀ l ∈ [str "B=2"], '\n' ∉ l ∧ trim l ≠ SEP) ∧
    ('\n' ∉ SEP) ∧ trim SEP = SEP ∧
    stripHeaders (joinLines ([str "A=1"] ++ SEP :: [str "B=2"]))
      = stripHeaders (joinLines [str "A=1"]) :=
  ⟨by decide, by decide, by decide, by decide,
   stripHeaders_lone_separator [str "A=1"] [str "B=2"] SEP
     (by decide) (by decide) (by decide) (by decide)⟩

/-- Claim C5: The five value-parsing edge cases of the specification. -/
theorem parseValue_edge_cases :
    parseValue (str "\"hello world\"") = str "hello world" ∧
    parseValue (squote :: str "a#b" ++ [squote]) = str "a#b" ∧
    parseValue (str "value # comment") = str "value" ∧
    parseValue (str "http://x#frag") = str "http://x#frag" ∧
    parseValue (str "") = str "" := by
  decide

end Env2Op

namespace Env2Op

/-! ## Parser invariants -/

theorem parseLoop_vars_lines (ls : List (List Char)) :
    ∀ n cur, (parseLoop ls n cur).vars.map (fun v => (v.key, v.value))
      = (parseLoop ls n cur).lines.filterMap varKV := by
  induction ls with
  | nil => intro n cur; rfl
  | cons l rest ih =>
    intro n cur
    simp only [parseLoop]
    by_cases hb : trim l = []
    · simp [hb, varKV, ih]
    · rw [if_neg hb]
      by_cases hc : listStartsWith (trim l) (str "#") = true
      · simp [hc, varKV, ih]
      · rw [if_neg hc]
        rcases hkv : kvMatch (trim l) with _ | ⟨k, raw⟩
        · by_cases he : (trim l).any (· = '=') = true
          · simp [he, ih]
          · simp [he, ih]
        · simp [varKV, ih]

/-- Claim C6: The `variables` sequence is exactly the `variable`-tagged subsequence
of `lines`, agreeing pointwise on key and value in the same relative order. -/
theorem parseEnvFile_vars_lines (content : List Char) :
    (parseEnvFile content).vars.map (fun v => (v.key, v.value))
      = (parseEnvFile content).lines.filterMap varKV :=
  parseLoop_vars_lines _ 1 []

end Env2Op

namespace Env2Op

/-! ## Round-trip structure preservation (C2) -/

theorem isKeyStart_isKeyChar {c : Char} (h : isKeyStart c = true) :
    isKeyChar c = true := by
  simp only [isKeyStart, Bool.or_eq_true, Bool.and_eq_true,
    decide_eq_true_eq] at h
  simp only [isKeyChar, Bool.or_eq_true, Bool.and_eq_true, decide_eq_true_eq]
  omega

theorem isKeyStart_not_ws {c : Char} (h : isKeyStart c = true) :
    jsWs c = false := by
  rw [Bool.eq_false_iff]
  intro hw
  simp only [isKeyStart, Bool.or_eq_true, Bool.and_eq_true,
    decide_eq_true_eq] at h
  simp only [jsWs, Bool.or_eq_true, Bool.and_eq_true, decide_eq_true_eq] at hw
  omega

theorem isKeyStart_ne_hash {c : Char} (h : isKeyStart c = true) : c ≠ '#' := by
  intro hc
  subst hc
  simp [isKeyStart] at h

theorem trim_cons_of_not_ws {c : Char} {t : List Char} (h : jsWs c = false) :
    trim (c :: t) = c :: trimRight t := by
  unfold trim trimLeft
  rw [List.dropWhile_cons_of_neg (by simp [h])]
  simp [trimRight, h]

theorem kvMatch_key_cons {l k raw : List Char} (h : kvMatch l = some (k, raw)) :
    ∃ c k', k = c :: k' ∧ isKeyStart c = true := by
  cases l with
  | nil => simp [kvMatch] at h
  | cons c t =>
    simp only [kvMatch] at h
    by_cases hs : isKeyStart c = true
    · rw [if_pos hs] at h
      split at h
      · split at h
        · cases h
        · rename_i heq _
          refine ⟨c, t.takeWhile isKeyChar, ?_, hs⟩
          have hk : k = (c :: t).takeWhile isKeyChar := by
            cases h; rfl
          rw [hk, List.takeWhile_cons_of_pos (isKeyStart_isKeyChar hs)]
      · cases h
    · rw [if_neg hs] at h
      cases h

theorem structural_render_var {c : Char} {k' v : List Char}
    (hs : isKeyStart c = true) :
    structural (c :: (k' ++ '=' :: v)) = false := by
  have hw : jsWs c = false := isKeyStart_not_ws hs
  have hone : str "#" = ['#'] := rfl
  simp only [structural, trim_cons_of_not_ws hw, hone]
  simp only [listStartsWith, Bool.or_eq_false_iff]
  constructor
  · simp
  · simp [isKeyStart_ne_hash hs]

theorem parseLoop_structural (ls : List (List Char)) :
    ∀ n cur, ((parseLoop ls n cur).lines.map renderLine).filter structural
      = (ls.filter structural).map normBlank := by
  induction ls with
  | nil => intro n cur; rfl
  | cons l rest ih =>
    intro n cur
    simp only [parseLoop]
    by_cases hb : trim l = []
    · rw [if_pos hb]
      simp only [List.map_cons, renderLine]
      rw [List.filter_cons_of_pos (by decide),
        List.filter_cons_of_pos (by simp [structural, hb])]
      simp [normBlank, hb, ih]
    · rw [if_neg hb]
      by_cases hc : listStartsWith (trim l) (str "#") = true
      · rw [if_pos hc]
        simp only [List.map_cons, renderLine]
        rw [List.filter_cons_of_pos (by simp [structural, hc]),
          List.filter_cons_of_pos (by simp [structural, hc])]
        simp [normBlank, hb, ih]
      · rw [if_neg hc]
        have hstruct : structural l = false := by
          simp [structural, hb, hc]
        rcases hkv : kvMatch (trim l) with _ | ⟨k, raw⟩
        · by_cases he : (trim l).any (· = '=') = true
          · rw [if_pos he]
            rw [List.filter_cons_of_neg (by simp [hstruct])]
            exact ih (n + 1) cur
          · rw [if_neg he]
            rw [List.filter_cons_of_neg (by simp [hstruct])]
            exact ih (n + 1) cur
        · obtain ⟨c, k', hk, hcs⟩ := kvMatch_key_cons hkv
          simp only [List.map_cons, renderLine]
          rw [List.filter_cons_of_neg
              (by rw [hk, List.cons_append]; simp [structural_render_var hcs]),
            List.filter_cons_of_neg (by simp [hstruct])]
          exact ih (n + 1) []

/-- Amended C2: regenerating the parsed `lines` reproduces exactly the comment
lines (verbatim) and the blank lines (as empty lines) of the input, in order and
count, once the known header block *and any leading byte-order mark* are
removed from the input. -/
theorem parseEnvFile_roundtrip_structure (content : List Char) :
    ((parseEnvFile content).lines.map renderLine).filter structural
      = ((splitLines (stripHeaders (stripBom content))).filter structural).map
          normBlank :=
  parseLoop_structural _ 1 []

/-- Claim C2, counterexample: With a leading byte-order mark (`"﻿# hi"`),
removing only the header block from the input does *not* reproduce the comment
verbatim: the parser also strips the BOM, so the regenerated comment is
`"# hi"` while the input line is `"﻿# hi"`. -/
theorem roundtrip_needs_bom_strip :
    ((parseEnvFile (str "﻿# hi")).lines.map renderLine).filter structural
      ≠ ((splitLines (stripHeaders (str "﻿# hi"))).filter structural).map
          normBlank := by
  decide

end Env2Op

namespace Env2Op

/-! ## Invalid-key rejection (C9) -/

theorem parseLoop_error_mem (ls : List (List Char)) :
    ∀ n cur j, j < ls.length →
      trim (ls.getD j []) ≠ [] →
      listStartsWith (trim (ls.getD j [])) (str "#") = false →
      kvMatch (trim (ls.getD j [])) = none →
      (trim (ls.getD j [])).any (· = '=') = true →
      errLine (n + j) ∈ (parseLoop ls n cur).errors := by
  induction ls with
  | nil =>
    intro n cur j hj
    simp at hj
  | cons l rest ih =>
    intro n cur j hj hne hnc hkv heq
    cases j with
    | zero =>
      rw [List.getD_cons_zero] at hne hnc hkv heq
      simp only [parseLoop, if_neg hne, hnc, Bool.false_eq_true, if_false,
        hkv, heq, if_true]
      exact List.mem_cons_self _ _
    | succ j' =>
      have hj' : j' < rest.length := by simpa using hj
      rw [List.getD_cons_succ] at hne hnc hkv heq
      have harith : n + (j' + 1) = (n + 1) + j' := by omega
      simp only [parseLoop]
      by_cases hb : trim l = []
      · rw [if_pos hb]
        rw [harith]
        exact ih (n + 1) [] j' hj' hne hnc hkv heq
      · rw [if_neg hb]
        by_cases hc : listStartsWith (trim l) (str "#") = true
        · rw [if_pos hc, harith]
          exact ih (n + 1) _ j' hj' hne hnc hkv heq
        · rw [if_neg hc]
          rcases hkvl : kvMatch (trim l) with _ | ⟨k, raw⟩
          · by_cases he : (trim l).any (· = '=') = true
            · rw [if_pos he, harith]
              exact List.mem_cons_of_mem _ (ih (n + 1) cur j' hj' hne hnc hkv heq)
            · rw [if_neg he, harith]
              exact ih (n + 1) cur j' hj' hne hnc hkv heq
          · rw [harith]
            exact ih (n + 1) [] j' hj' hne hnc hkv heq

end Env2Op

namespace Env2Op

theorem parseLoop_vars_line (ls : List (List Char)) :
    ∀ n cur v, v ∈ (parseLoop ls n cur).vars →
      n ≤ v.line ∧ v.line - n < ls.length ∧
      kvMatch (trim (ls.getD (v.line - n) [])) ≠ none := by
  induction ls with
  | nil =>
    intro n cur v hv
    simp [parseLoop] at hv
  | cons l rest ih =>
    intro n cur v hv
    simp only [parseLoop] at hv
    by_cases hb : trim l = []
    · rw [if_pos hb] at hv
      obtain ⟨h1, h2, h3⟩ := ih (n + 1) [] v hv
      refine ⟨by omega, by simp only [List.length_cons]; omega, ?_⟩
      have harith : v.line - n = (v.line - (n + 1)) + 1 := by omega
      rw [harith, List.getD_cons_succ]
      exact h3
    · rw [if_neg hb] at hv
      by_cases hc : listStartsWith (trim l) (str "#") = true
      · rw [if_pos hc] at hv
        obtain ⟨h1, h2, h3⟩ := ih (n + 1) _ v hv
        refine ⟨by omega, by simp only [List.length_cons]; omega, ?_⟩
        have harith : v.line - n = (v.line - (n + 1)) + 1 := by omega
        rw [harith, List.getD_cons_succ]
        exact h3
      · rw [if_neg hc] at hv
        rcases hkvl : kvMatch (trim l) with _ | ⟨k, raw⟩
        · rw [hkvl] at hv
          by_cases he : (trim l).any (· = '=') = true
          · rw [if_pos he] at hv
            obtain ⟨h1, h2, h3⟩ := ih (n + 1) cur v hv
            refine ⟨by omega, by simp only [List.length_cons]; omega, ?_⟩
            have harith : v.line - n = (v.line - (n + 1)) + 1 := by omega
            rw [harith, List.getD_cons_succ]
            exact h3
          · rw [if_neg he] at hv
            obtain ⟨h1, h2, h3⟩ := ih (n + 1) cur v hv
            refine ⟨by omega, by simp only [List.length_cons]; omega, ?_⟩
            have harith : v.line - n = (v.line - (n + 1)) + 1 := by omega
            rw [harith, List.getD_cons_succ]
            exact h3
        · rw [hkvl] at hv
          rcases List.mem_cons.mp hv with rfl | hv
          · refine ⟨le_refl n, by simp, ?_⟩
            simp only [Nat.sub_self, List.getD_cons_zero, hkvl]
            simp
          · obtain ⟨h1, h2, h3⟩ := ih (n + 1) [] v hv
            refine ⟨by omega, by simp only [List.length_cons]; omega, ?_⟩
            have harith : v.line - n = (v.line - (n + 1)) + 1 := by omega
            rw [harith, List.getD_cons_succ]
            exact h3

theorem parseLoop_lines_eq (ls : List (List Char)) :
    ∀ n cur, (parseLoop ls n cur).lines = ls.filterMap lineRepr := by
  induction ls with
  | nil => intro n cur; rfl
  | cons l rest ih =>
    intro n cur
    simp only [parseLoop, List.filterMap_cons]
    by_cases hb : trim l = []
    · simp only [lineRepr, if_pos hb]
      simp [hb, ih]
    · rw [if_neg hb]
      by_cases hc : listStartsWith (trim l) (str "#") = true
      · simp only [lineRepr, if_neg hb, if_pos hc]
        simp [hc, ih]
      · rw [if_neg hc]
        rcases hkvl : kvMatch (trim l) with _ | ⟨k, raw⟩
        · simp only [lineRepr, if_neg hb, if_neg hc, hkvl]
          by_cases he : (trim l).any (· = '=') = true
          · simp [he, ih]
          · simp [he, ih]
        · simp only [lineRepr, if_neg hb, if_neg hc, hkvl]
          simp [ih]

end Env2Op

namespace Env2Op

/-- Claim C9: A line (at 1-based position `N` of the parsed content) that contains
`=` but fails the key pattern is non-fatal: `parseEnvFile` records
`"Line N: Invalid variable name"` in `errors`, no variable carries source line
`N`, and `lines` is exactly the per-line representation — in which this line is
unrepresented. -/
theorem parseEnvFile_invalid_key (content : List Char) (N : Nat)
    (hN : 1 ≤ N)
    (hlt : N - 1 < (splitLines (stripHeaders (stripBom content))).length)
    (hne : trim ((splitLines (stripHeaders (stripBom content))).getD (N - 1) [])
      ≠ [])
    (hnc : listStartsWith
        (trim ((splitLines (stripHeaders (stripBom content))).getD (N - 1) []))
        (str "#") = false)
    (hkv : kvMatch
        (trim ((splitLines (stripHeaders (stripBom content))).getD (N - 1) []))
      = none)
    (heq : (trim ((splitLines (stripHeaders (stripBom content))).getD (N - 1)
        [])).any (· = '=') = true) :
    errLine N ∈ (parseEnvFile content).errors ∧
    (∀ v ∈ (parseEnvFile content).vars, v.line ≠ N) ∧
    (parseEnvFile content).lines
      = (splitLines (stripHeaders (stripBom content))).filterMap lineRepr ∧
    lineRepr ((splitLines (stripHeaders (stripBom content))).getD (N - 1) [])
      = none := by
  refine ⟨?_, ?_, parseLoop_lines_eq _ 1 [], ?_⟩
  · have hmem := parseLoop_error_mem _ 1 [] (N - 1) hlt hne hnc hkv heq
    have harith : 1 + (N - 1) = N := by omega
    rwa [harith] at hmem
  · intro v hv hline
    obtain ⟨h1, h2, h3⟩ := parseLoop_vars_line _ 1 [] v hv
    rw [hline] at h3
    exact h3 hkv
  · simp only [lineRepr, if_neg hne, hnc, Bool.false_eq_true, if_false, hkv]

/-- Witness for C9 at content `"123KEY=value"`, line 1. -/
theorem parseEnvFile_invalid_key_witness :
    errLine 1 ∈ (parseEnvFile (str "123KEY=value")).errors ∧
    (∀ v ∈ (parseEnvFile (str "123KEY=value")).vars, v.line ≠ 1) ∧
    (parseEnvFile (str "123KEY=value")).lines
      = (splitLines (stripHeaders (stripBom (str "123KEY=value")))).filterMap
          lineRepr ∧
    lineRepr ((splitLines (stripHeaders (stripBom
        (str "123KEY=value")))).getD (1 - 1) []) = none :=
  parseEnvFile_invalid_key (str "123KEY=value") 1 (by decide) (by decide)
    (by decide) (by decide) (by decide) (by decide)

end Env2Op

namespace Env2Op

/-! ## The update submission of `editSecureNote` (C1) -/

theorem isDeletionArg_fieldArg (secret : Bool) (v : EnvVariable) :
    isDeletionArg (fieldArg secret v) = false := by
  simp [isDeletionArg, fieldArg]

theorem deletionLabels_map_fieldArg (secret : Bool)
    (fields : List EnvVariable) :
    deletionLabels (fields.map (fieldArg secret)) = [] := by
  induction fields with
  | nil => rfl
  | cons v rest ih =>
    simp only [List.map_cons, deletionLabels, List.filterMap_cons,
      isDeletionArg_fieldArg, Bool.false_eq_true, if_false]
    simp only [deletionLabels] at ih
    exact ih

/-- Claim C1, counterexample: For the remote item with field labels `{A, B, C}`
and the desired key set `{B, C, D}`, the edit that `editSecureNote` submits
contains *no* deletion directive: its deletion set is empty, not `{A}`. -/
theorem editSecureNote_no_deletions :
    deletionLabels (submittedFieldArgs ((editSecureNote demoItem
        (str "Personal") (str "MyApp") false demoVars).submitted)) = [] ∧
    deletionLabels (submittedFieldArgs ((editSecureNote demoItem
        (str "Personal") (str "MyApp") false demoVars).submitted))
      ≠ [str "A"] := by
  decide

/-- Amended C1: for a remote item with field labels `A, B, C` and desired keys
`B, C, D`, `editSecureNote` submits a single edit whose deletion set is *empty*
(the stale label `A` is left in place, not deleted), whose field arguments
(re)write exactly the desired keys with their current values and type, and
whose returned field ids for the already-existing keys `B` and `C` are the
item's pre-edit field ids (not reissued). -/
theorem editSecureNote_update_diff (iid ititle vid vname title vault
    ia ib ic va vb vc xb xc xd : List Char) (secret : Bool)
    (hia : ia ≠ []) (hib : ib ≠ []) (hic : ic ≠ []) :
    deletionLabels (submittedFieldArgs ((editSecureNote
        ⟨iid, ititle, vid, vname,
          [⟨ia, str "A", va⟩, ⟨ib, str "B", vb⟩, ⟨ic, str "C", vc⟩]⟩
        vault title secret
        [⟨str "B", xb, none, 1⟩, ⟨str "C", xc, none, 2⟩,
         ⟨str "D", xd, none, 3⟩]).submitted)) = [] ∧
    submittedFieldArgs ((editSecureNote
        ⟨iid, ititle, vid, vname,
          [⟨ia, str "A", va⟩, ⟨ib, str "B", vb⟩, ⟨ic, str "C", vc⟩]⟩
        vault title secret
        [⟨str "B", xb, none, 1⟩, ⟨str "C", xc, none, 2⟩,
         ⟨str "D", xd, none, 3⟩]).submitted)
      = [fieldArg secret ⟨str "B", xb, none, 1⟩,
         fieldArg secret ⟨str "C", xc, none, 2⟩,
         fieldArg secret ⟨str "D", xd, none, 3⟩] ∧
    getKey (editSecureNote
        ⟨iid, ititle, vid, vname,
          [⟨ia, str "A", va⟩, ⟨ib, str "B", vb⟩, ⟨ic, str "C", vc⟩]⟩
        vault title secret
        [⟨str "B", xb, none, 1⟩, ⟨str "C", xc, none, 2⟩,
         ⟨str "D", xd, none, 3⟩]).result.fieldIds (str "B") = some ib ∧
    getKey (editSecureNote
        ⟨iid, ititle, vid, vname,
          [⟨ia, str "A", va⟩, ⟨ib, str "B", vb⟩, ⟨ic, str "C", vc⟩]⟩
        vault title secret
        [⟨str "B", xb, none, 1⟩, ⟨str "C", xc, none, 2⟩,
         ⟨str "D", xd, none, 3⟩]).result.fieldIds (str "C") = some ic := by
  have hab : (str "A" = str "B") = False := by decide
  have hac : (str "A" = str "C") = False := by decide
  have had : (str "A" = str "D") = False := by decide
  have hba : (str "B" = str "A") = False := by decide
  have hbc : (str "B" = str "C") = False := by decide
  have hbd : (str "B" = str "D") = False := by decide
  have hca : (str "C" = str "A") = False := by decide
  have hcb : (str "C" = str "B") = False := by decide
  have hcd : (str "C" = str "D") = False := by decide
  have hda : (str "D" = str "A") = False := by decide
  have hdb : (str "D" = str "B") = False := by decide
  have hdc : (str "D" = str "C") = False := by decide
  have hAe : (str "A" = ([] : List Char)) = False := by decide
  have hBe : (str "B" = ([] : List Char)) = False := by decide
  have hCe : (str "C" = ([] : List Char)) = False := by decide
  have hDe : (str "D" = ([] : List Char)) = False := by decide
  have hfe : (freshName 2 = ([] : List Char)) = False := by decide
  have hiae : (ia = ([] : List Char)) = False := eq_false hia
  have hibe : (ib = ([] : List Char)) = False := eq_false hib
  have hice : (ic = ([] : List Char)) = False := eq_false hic
  refine ⟨deletionLabels_map_fieldArg secret _, rfl, ?_, ?_⟩
  · simp [editSecureNote, applyEdits, applyAssign, extractFieldIds, setKey,
      getKey, hab, hac, had, hba, hbc, hbd, hca, hcb, hcd, hda, hdb, hdc,
      hAe, hBe, hCe, hDe, hfe, hiae, hibe, hice]
  · simp [editSecureNote, applyEdits, applyAssign, extractFieldIds, setKey,
      getKey, hab, hac, had, hba, hbc, hbd, hca, hcb, hcd, hda, hdb, hdc,
      hAe, hBe, hCe, hDe, hfe, hiae, hibe, hice]

/-- Witness for the amended C1 at the concrete scenario (`demoItem`,
`demoVars`, plain-text fields). -/
theorem editSecureNote_update_diff_witness :
    (str "f1" ≠ ([] : List Char)) ∧ (str "f2" ≠ ([] : List Char)) ∧
    (str "f3" ≠ ([] : List Char)) ∧
    (deletionLabels (submittedFieldArgs ((editSecureNote demoItem
        (str "Personal") (str "MyApp") false demoVars).submitted)) = [] ∧
     submittedFieldArgs ((editSecureNote demoItem (str "Personal")
        (str "MyApp") false demoVars).submitted)
       = [fieldArg false ⟨str "B", str "2", none, 1⟩,
          fieldArg false ⟨str "C", str "3", none, 2⟩,
          fieldArg false ⟨str "D", str "4", none, 3⟩] ∧
     getKey (editSecureNote demoItem (str "Personal") (str "MyApp") false
        demoVars).result.fieldIds (str "B") = some (str "f2") ∧
     getKey (editSecureNote demoItem (str "Personal") (str "MyApp") false
        demoVars).result.fieldIds (str "C") = some (str "f3")) :=
  ⟨by decide, by decide, by decide,
   editSecureNote_update_diff (str "item1") (str "MyApp") (str "vault1")
     (str "Personal") (str "MyApp") (str "Personal") (str "f1") (str "f2")
     (str "f3") (str "1") (str "2") (str "3") (str "2") (str "3") (str "4")
     false (by decide) (by decide) (by decide)⟩

end Env2Op

namespace Env2Op

/-! ## Dry-run and confirmation behaviour of the command flows (C7, C8) -/

theorem runConvert_dryRun (o : ConvertOptions) (w : ConvertWorld)
    (h : o.dryRun = true) :
    (runConvert o w).trace = [Effect.fileRead o.envFile] := by
  rcases hw : w.envContent with _ | content
  · simp [runConvert, hw]
  · by_cases hz : (parseEnvFile content).vars.length = 0
    · simp [runConvert, hw, hz]
    · simp [runConvert, hw, hz, h]

theorem runInject_dryRun (o : InjectOptions) (w : InjectWorld)
    (h : o.dryRun = true) :
    runInject o w
      = if (getKey w.files o.templateFile).isNone
        then ⟨[Effect.fileExists o.templateFile], 1, w.files⟩
        else ⟨[Effect.fileExists o.templateFile,
               Effect.fileExists (outPathOf o)], 0, w.files⟩ := by
  by_cases ht : (getKey w.files o.templateFile).isNone = true
  · simp [runInject, ht, h]
  · simp [runInject, ht, h]

/-- Claim C7, counterexample: Under `--dry-run` the provider CLI-installed check
(and with it the sign-in, vault and item checks) is *not* performed: neither
flow's trace contains `checkOpCli`, although every provider call would succeed
in this world. -/
theorem dryRun_skips_provider_checks :
    Effect.checkOpCli ∉ (runConvert
      ⟨str ".env", str "Personal", str "MyApp", none, true, false, false⟩
      ⟨some (str "A=1"), true, true, true, true, true, true, true, true,
       true⟩).trace ∧
    Effect.checkOpCli ∉ (runInject
      ⟨str ".env.tpl", none, true, false⟩
      ⟨[(str ".env.tpl", str "T"), (str ".env", str "E")], true, true, true,
       true, str "A=1", str "ts"⟩).trace := by
  decide

/-- Amended C7: under `--dry-run` both flows make *no* provider call at all —
the read-only provider checks are skipped along with the mutations — and
perform no write; the pull flow still checks template and output file
existence (the latter whenever the template exists), and leaves the file
system unchanged. -/
theorem dryRun_frame (co : ConvertOptions) (cw : ConvertWorld)
    (io : InjectOptions) (iw : InjectWorld)
    (hc : co.dryRun = true) (hi : io.dryRun = true) :
    (∀ e ∈ (runConvert co cw).trace,
      isProviderCall e = false ∧ isMutation e = false) ∧
    (∀ e ∈ (runInject io iw).trace,
      isProviderCall e = false ∧ isMutation e = false) ∧
    (runInject io iw).files = iw.files ∧
    Effect.fileExists io.templateFile ∈ (runInject io iw).trace ∧
    ((getKey iw.files io.templateFile).isSome = true →
      Effect.fileExists (outPathOf io) ∈ (runInject io iw).trace) := by
  refine ⟨?_, ?_, ?_, ?_, ?_⟩
  · intro e he
    rw [runConvert_dryRun co cw hc] at he
    simp only [List.mem_singleton] at he
    subst he
    exact ⟨rfl, rfl⟩
  · intro e he
    rw [runInject_dryRun io iw hi] at he
    split at he <;> simp only [List.mem_singleton, List.mem_cons,
      List.not_mem_nil, or_false] at he
    · subst he; exact ⟨rfl, rfl⟩
    · rcases he with rfl | rfl
      · exact ⟨rfl, rfl⟩
      · exact ⟨rfl, rfl⟩
  · rw [runInject_dryRun io iw hi]
    split <;> rfl
  · rw [runInject_dryRun io iw hi]
    split <;> simp
  · intro hs
    rw [runInject_dryRun io iw hi]
    rw [if_neg (by
      simp [Option.isNone_eq_false_iff, Option.isSome_iff_ne_none] at hs ⊢
      exact hs)]
    simp

/-- Witness for the amended C7 at concrete dry-run invocations of both flows. -/
theorem dryRun_frame_witness :
    (ConvertOptions.dryRun
        ⟨str ".env", str "Personal", str "MyApp", none, true, false, false⟩
      = true) ∧
    (InjectOptions.dryRun ⟨str ".env.tpl", none, true, false⟩ = true) ∧
    ((∀ e ∈ (runConvert
        ⟨str ".env", str "Personal", str "MyApp", none, true, false, false⟩
        ⟨some (str "A=1"), true, true, true, true, true, true, true, true,
         true⟩).trace, isProviderCall e = false ∧ isMutation e = false) ∧
     (∀ e ∈ (runInject ⟨str ".env.tpl", none, true, false⟩
        ⟨[(str ".env.tpl", str "T"), (str ".env", str "E")], true, true, true,
         true, str "A=1", str "ts"⟩).trace,
        isProviderCall e = false ∧ isMutation e = false) ∧
     (runInject ⟨str ".env.tpl", none, true, false⟩
        ⟨[(str ".env.tpl", str "T"), (str ".env", str "E")], true, true, true,
         true, str "A=1", str "ts"⟩).files
       = [(str ".env.tpl", str "T"), (str ".env", str "E")] ∧
     Effect.fileExists (str ".env.tpl") ∈ (runInject
        ⟨str ".env.tpl", none, true, false⟩
        ⟨[(str ".env.tpl", str "T"), (str ".env", str "E")], true, true, true,
         true, str "A=1", str "ts"⟩).trace ∧
     ((getKey [(str ".env.tpl", str "T"), (str ".env", str "E")]
          (str ".env.tpl")).isSome = true →
       Effect.fileExists (outPathOf ⟨str ".env.tpl", none, true, false⟩)
         ∈ (runInject ⟨str ".env.tpl", none, true, false⟩
            ⟨[(str ".env.tpl", str "T"), (str ".env", str "E")], true, true,
             true, true, str "A=1", str "ts"⟩).trace)) :=
  ⟨rfl, rfl,
   dryRun_frame
     ⟨str ".env", str "Personal", str "MyApp", none, true, false, false⟩
     ⟨some (str "A=1"), true, true, true, true, true, true, true, true, true⟩
     ⟨str ".env.tpl", none, true, false⟩
     ⟨[(str ".env.tpl", str "T"), (str ".env", str "E")], true, true, true,
      true, str "A=1", str "ts"⟩
     rfl rfl⟩

/-- Claim C8: Pulling onto an existing output file without `--force`: the
confirmation prompt appears in the trace, and when the user declines the run
exits with code 0, performs no write or mutation at all, and leaves the file
system (hence the output file's bytes) unchanged. -/
theorem runInject_decline_preserves_file (o : InjectOptions) (w : InjectWorld)
    (hdry : o.dryRun = false) (hforce : o.force = false)
    (htpl : (getKey w.files o.templateFile).isSome = true)
    (hop : w.opInstalled = true) (hsi : w.signedIn = true)
    (hout : (getKey w.files (outPathOf o)).isSome = true)
    (hconf : w.confirmOverwrite = false) :
    (runInject o w).exitCode = 0 ∧
    (runInject o w).files = w.files ∧
    Effect.confirmOverwrite (outPathOf o) ∈ (runInject o w).trace ∧
    ∀ e ∈ (runInject o w).trace, isMutation e = false := by
  have h1 : (getKey w.files o.templateFile).isNone = false := by
    rcases hg : getKey w.files o.templateFile with _ | v
    · rw [hg] at htpl; simp at htpl
    · rfl
  have hrun : runInject o w
      = ⟨[Effect.fileExists o.templateFile, Effect.checkOpCli,
          Effect.checkSignedIn, Effect.fileExists (outPathOf o),
          Effect.confirmOverwrite (outPathOf o)], 0, w.files⟩ := by
    simp [runInject, h1, hdry, hforce, hop, hsi, hout, hconf]
  rw [hrun]
  refine ⟨rfl, rfl, by simp, ?_⟩
  intro e he
  simp only [List.mem_cons, List.not_mem_nil, or_false] at he
  rcases he with rfl | rfl | rfl | rfl | rfl <;> rfl

/-- Witness for C8: a concrete pull whose target `.env` already exists, without
`--force`, where the user declines. -/
theorem runInject_decline_witness :
    (InjectOptions.dryRun ⟨str ".env.tpl", none, false, false⟩ = false) ∧
    (InjectOptions.force ⟨str ".env.tpl", none, false, false⟩ = false) ∧
    ((runInject ⟨str ".env.tpl", none, false, false⟩
        ⟨[(str ".env.tpl", str "T"), (str ".env", str "OLD")], true, true,
         false, true, str "R", str "ts"⟩).exitCode = 0 ∧
     (runInject ⟨str ".env.tpl", none, false, false⟩
        ⟨[(str ".env.tpl", str "T"), (str ".env", str "OLD")], true, true,
         false, true, str "R", str "ts"⟩).files
       = [(str ".env.tpl", str "T"), (str ".env", str "OLD")] ∧
     Effect.confirmOverwrite (outPathOf ⟨str ".env.tpl", none, false, false⟩)
       ∈ (runInject ⟨str ".env.tpl", none, false, false⟩
          ⟨[(str ".env.tpl", str "T"), (str ".env", str "OLD")], true, true,
           false, true, str "R", str "ts"⟩).trace ∧
     ∀ e ∈ (runInject ⟨str ".env.tpl", none, false, false⟩
        ⟨[(str ".env.tpl", str "T"), (str ".env", str "OLD")], true, true,
         false, true, str "R", str "ts"⟩).trace, isMutation e = false) :=
  ⟨rfl, rfl,
   runInject_decline_preserves_file ⟨str ".env.tpl", none, false, false⟩
     ⟨[(str ".env.tpl", str "T"), (str ".env", str "OLD")], true, true, false,
      true, str "R", str "ts"⟩
     rfl rfl (by decide) rfl rfl (by decide) rfl⟩

end Env2Op
